import Mathlib

/-!
# Verified model of the IToN_Agents extraction-and-orchestration subsystem

This file gives a shallow embedding, in Lean 4, of the core components of
the IToN_Agents pipeline: the bounded conversation window (`memory.ts`),
the job-lifecycle HTTP handlers (server), the pipeline orchestrator's URL
merge, the heuristic sanity-document builder, the hour-token normalizer,
and the query generator's output normalization.  JavaScript strings are
modelled as `List Char`; machine numbers as `Nat`/`Int`/`Rat`; absent or
`null` fields as `Option`; thrown exceptions as `Except`/`Option`.
Theorems at the end of the file settle the specification claims.
-/

set_option maxHeartbeats 1000000

/-! ## JavaScript string helpers (strings modelled as `List Char`) -/

/-- The whitespace characters recognised by the embedding (the common ASCII
subset of the JavaScript `\s` class: space, tab, newline, carriage return,
vertical tab, form feed). -/
def isWsChar (c : Char) : Bool :=
  c = ' ' || c = '\t' || c = '\n' || c = '\x0d' || c = Char.ofNat 11 || c = Char.ofNat 12

/-- JavaScript `String.prototype.trim`: drop whitespace from both ends. -/
def jsTrim (l : List Char) : List Char :=
  ((l.dropWhile isWsChar).reverse.dropWhile isWsChar).reverse

/-- JavaScript `str.split(sep)` for a one-character separator: split on every
occurrence of `sep`, keeping empty pieces. -/
def splitOnChar (sep : Char) (l : List Char) : List (List Char) :=
  match l with
  | [] => [[]]
  | c :: rest =>
    let tail := splitOnChar sep rest
    if c = sep then
      [] :: tail
    else
      match tail with
      | [] => [[c]]
      | piece :: more => (c :: piece) :: more

/-- JavaScript `parts.join(sep)` for a one-character separator. -/
def joinWithChar (sep : Char) : List (List Char) → List Char
  | [] => []
  | [p] => p
  | p :: q :: rest => p ++ sep :: joinWithChar sep (q :: rest)

/-- ASCII lower-casing of one character (models `String.prototype.toLowerCase`
on the ASCII range; other characters are left unchanged). -/
def lowerChar (c : Char) : Char :=
  if 'A' ≤ c ∧ c ≤ 'Z' then Char.ofNat (c.toNat + 32) else c

/-- ASCII lower-casing of a JavaScript string. -/
def lowerStr (l : List Char) : List Char := l.map lowerChar

/-- Decimal digit characters. -/
def isDigitChar (c : Char) : Bool := '0' ≤ c && c ≤ '9'

/-- Fuel-bounded digit expansion (the fuel `n + 1` used by `natChars` is
always sufficient, since `n / 10 < n`). -/
def natCharsAux : Nat → Nat → List Char
  | 0, _ => []
  | f + 1, n =>
    if n < 10 then [Nat.digitChar n]
    else natCharsAux f (n / 10) ++ [Nat.digitChar (n % 10)]

/-- The decimal representation of a natural number, as produced by JavaScript
template interpolation of a non-negative integer. -/
def natChars (n : Nat) : List Char := natCharsAux (n + 1) n

/-- Number of decimal digits of a natural number. -/
def digitCount (n : Nat) : Nat :=
  if h : n < 10 then 1 else digitCount (n / 10) + 1
termination_by n
decreasing_by
  exact Nat.div_lt_self (by omega) (by omega)

theorem natCharsAux_length (f : Nat) : ∀ n, n < f →
    (natCharsAux f n).length = digitCount n := by
  induction f with
  | zero =>
    intro n hn
    omega
  | succ f ih =>
    intro n hn
    rw [natCharsAux, digitCount]
    split
    · simp
    · rename_i h
      have hd : n / 10 < n := Nat.div_lt_self (by omega) (by omega)
      simp [ih (n / 10) (by omega)]

theorem natChars_length (n : Nat) : (natChars n).length = digitCount n :=
  natCharsAux_length (n + 1) n (by omega)

theorem digitCount_add_lt (n : Nat) (h : 25 ≤ n) : digitCount n + 22 < n := by
  induction n using Nat.strong_induction_on with
  | _ n ih =>
    by_cases h100 : n < 100
    · have h10 : ¬ n < 10 := by omega
      rw [digitCount]
      simp only [h10, dite_false]
      rw [digitCount]
      have : n / 10 < 10 := by omega
      simp only [this, dite_true]
      omega
    · rw [digitCount]
      have h10 : ¬ n < 10 := by omega
      simp only [h10, dite_false]
      by_cases h25 : 25 ≤ n / 10
      · have hlt : n / 10 < n := Nat.div_lt_self (by omega) (by omega)
        have := ih (n / 10) hlt h25
        omega
      · -- 100 ≤ n < 250 : the quotient has exactly two digits
        have hq1 : ¬ n / 10 < 10 := by omega
        rw [digitCount]
        simp only [hq1, dite_false]
        rw [digitCount]
        have hq2 : n / 10 / 10 < 10 := by omega
        simp only [hq2, dite_true]
        omega

/-! ## Bounded conversation window (`src/memory.ts`, part_006)

The transcript records are duck-typed JavaScript objects.  A field that may
be absent, `null`, or of the wrong runtime type is modelled as an `Option`
that is `none` in all of those cases. -/

/-- One tool call attached to an assistant message.  Only the `id` field is
ever consulted by the conversation-window code; the remaining OpenAI fields
(`type`, `function`) never influence control flow and are not modelled. -/
structure ToolCall where
  id : String
deriving Repr, DecidableEq

/-- A transcript record as handled at runtime by the memory module: `role`,
`tool_call_id` are strings when present; `content` is a string (`none`
models `null`, absence, or a non-string value); `tool_calls` is `some`
exactly when the field holds an array. -/
structure AIMessage where
  role : Option String := none
  content : Option (List Char) := none
  tool_call_id : Option String := none
  tool_calls : Option (List ToolCall) := none
deriving Repr, DecidableEq

/-- A raw element of the `messages` argument of `addMessages`: JavaScript
callers may pass `null`/`undefined`, primitives, or message-like objects. -/
inductive RawRecord where
  | nullish
  | primitive
  | record (m : AIMessage)
deriving Repr, DecidableEq

/-- The fixed size threshold for tool-message content (`TOOL_MAX`). -/
def TOOL_MAX : Nat := 16000

/-- The trailing marker appended to truncated tool content:
`"\n...[truncated " + n + " chars]"`. -/
def truncMarker (n : Nat) : List Char :=
  "\n...[truncated ".data ++ natChars n ++ " chars]".data

theorem truncMarker_length (n : Nat) :
    (truncMarker n).length = 22 + digitCount n := by
  have h1 : ("\n...[truncated ".data).length = 15 := rfl
  have h2 : (" chars]".data).length = 7 := rfl
  simp [truncMarker, natChars_length, h1, h2]
  omega

/-- The per-message trimming step of `addMessages`: oversized `tool` content
is cut to `TOOL_MAX` characters and the truncation marker is appended. -/
def trimMessage (m : AIMessage) : AIMessage :=
  if m.role = some "tool" then
    match m.content with
    | some c =>
      if TOOL_MAX < c.length then
        { m with content := some (c.take TOOL_MAX ++ truncMarker (c.length - TOOL_MAX)) }
      else m
    | none => m
  else m

/-- The validity filter of `addMessages`: drop `null`/`undefined`, drop
primitives, drop objects lacking a `role` field. -/
def validRecord : RawRecord → Option AIMessage
  | .record m => if m.role.isSome then some m else none
  | _ => none

/-- `addMessages` as a pure state transformer on the stored transcript.
(The JavaScript early-return when no record survives the filter appends
nothing, which coincides with appending the empty list.) -/
def addMessages (batch : List RawRecord) (stored : List AIMessage) : List AIMessage :=
  let validMessages := batch.filterMap validRecord
  stored ++ validMessages.map trimMessage

/-- Does `m` emit tool call `id`?  Mirrors the `findIndex` predicate:
`m.role === 'assistant' && Array.isArray(m.tool_calls) &&
m.tool_calls.some(tc => tc.id === toolCallId)`. -/
def emitsToolCall (m : AIMessage) (id : String) : Bool :=
  m.role == some "assistant" &&
    (match m.tool_calls with
     | some tcs => tcs.any (fun tc => tc.id == id)
     | none => false)

/-- `Array.prototype.findIndex` over the full transcript, for the assistant
message emitting `id`. -/
def findAssistantIndex (ms : List AIMessage) (id : String) : Option Nat :=
  match ms with
  | [] => none
  | m :: rest =>
    if emitsToolCall m id then some 0
    else (findAssistantIndex rest id).map (· + 1)

/-- The truthiness test `msg.role === 'tool' && msg.tool_call_id`: returns
the identifier when the message is a tool message with a truthy (present
and nonempty) `tool_call_id`. -/
def isPendingTool (m : AIMessage) : Option String :=
  if m.role = some "tool" then
    match m.tool_call_id with
    | some id => if id = "" then none else some id
    | none => none
  else none

/-- One pass of `adjustForToolDependencies` over the slice `l` (the current
candidate window), with `ms` the full transcript and `start` the current
window start: returns the new (smaller) start index at the first tool
message whose matching assistant lies before the window, or `none` when the
pass finds nothing (the JS function returns `false`). -/
def adjustAux (ms : List AIMessage) (start : Nat) : List AIMessage → Option Nat
  | [] => none
  | m :: rest =>
    match isPendingTool m with
    | some id =>
      match findAssistantIndex ms id with
      | some i => if i < start then some i else adjustAux ms start rest
      | none => adjustAux ms start rest
    | none => adjustAux ms start rest

/-- One pass of `adjustForToolDependencies` at window start `start`. -/
def adjustForToolDependencies (ms : List AIMessage) (start : Nat) : Option Nat :=
  adjustAux ms start (ms.drop start)

theorem adjustAux_lt (ms : List AIMessage) (start : Nat) (l : List AIMessage)
    (i : Nat) (h : adjustAux ms start l = some i) : i < start := by
  induction l with
  | nil => simp [adjustAux] at h
  | cons m rest ih =>
    rw [adjustAux] at h
    split at h
    · split at h
      · split at h
        · rename_i hj
          injection h with h'
          omega
        · exact ih h
      · exact ih h
    · exact ih h

theorem adjust_lt (ms : List AIMessage) (start i : Nat)
    (h : adjustForToolDependencies ms start = some i) : i < start :=
  adjustAux_lt ms start (ms.drop start) i h

/-- The `while (adjustForToolDependencies()) {}` loop: repeatedly move the
window start backward until a fixed point. -/
def expandStart (ms : List AIMessage) (start : Nat) : Nat :=
  match h : adjustForToolDependencies ms start with
  | none => start
  | some i =>
    have : i < start := adjust_lt ms start i h
    expandStart ms i
termination_by start

/-- `getMessages` (`tail`): default the limit to 1, take the last
`effectiveLimit` messages, then widen backward over tool dependencies. -/
def getMessages (ms : List AIMessage) (limit : Option Nat) : List AIMessage :=
  let effectiveLimit := limit.getD 1
  if ms.length ≤ effectiveLimit then ms
  else ms.drop (expandStart ms (ms.length - effectiveLimit))

/-- Fuel-bounded variant of the widening loop: at most `fuel` passes. -/
def expandFuel (ms : List AIMessage) : Nat → Nat → Nat
  | 0, s => s
  | f + 1, s =>
    match adjustForToolDependencies ms s with
    | none => s
    | some i => expandFuel ms f i

/-- `getMessages` computed with the widening loop bounded by the transcript
length. -/
def getMessagesFuel (ms : List AIMessage) (limit : Option Nat) : List AIMessage :=
  let effectiveLimit := limit.getD 1
  if ms.length ≤ effectiveLimit then ms
  else ms.drop (expandFuel ms ms.length (ms.length - effectiveLimit))

theorem expandStart_none (ms : List AIMessage) (s : Nat)
    (h : adjustForToolDependencies ms s = none) : expandStart ms s = s := by
  rw [expandStart]
  split
  · rfl
  · rename_i i hi
    rw [h] at hi
    cases hi

theorem expandStart_some (ms : List AIMessage) (s i : Nat)
    (h : adjustForToolDependencies ms s = some i) :
    expandStart ms s = expandStart ms i := by
  rw [expandStart]
  split
  · rename_i hn
    rw [h] at hn
    cases hn
  · rename_i j hj
    rw [h] at hj
    injection hj with h'
    rw [h']

theorem expandStart_fixed (ms : List AIMessage) (s : Nat) :
    adjustForToolDependencies ms (expandStart ms s) = none := by
  induction s using Nat.strong_induction_on with
  | _ s ih =>
    rw [expandStart]
    split
    · assumption
    · rename_i i h
      exact ih i (adjust_lt ms s i h)

/-! ## Job lifecycle manager (HTTP server, part_011)

The handlers are modelled as pure functions: the job looked up from the
id→job map is passed in as an `Option Job`, the current instant as a `Nat`,
and the result is the HTTP status code paired with the updated job. -/

inductive JobStatus where
  | queued
  | running
  | ready_for_review
  | approved
  | denied
  | failed
deriving Repr, DecidableEq

structure JobInput where
  city : String
  state : String
  category : String
  perQuery : Option Nat := none
  maxUrls : Option Nat := none
deriving Repr, DecidableEq

/-- A pipeline job.  The payload fields (`output`, `outputFile`,
`sanityFile`) are never consulted or altered by the review handlers and are
not modelled. -/
structure Job where
  id : String
  status : JobStatus
  createdAt : Nat
  updatedAt : Nat
  input : JobInput
  error : Option String := none
  approvedAt : Option Nat := none
  deniedAt : Option Nat := none
  reviewer : Option String := none
deriving Repr, DecidableEq

/-- `setJobStatus`: overwrite the status and stamp `updatedAt`. -/
def setJobStatus (job : Job) (status : JobStatus) (now : Nat) : Job :=
  { job with status := status, updatedAt := now }

/-- Body of the `POST /jobs/:id/approve` handler once the job is found:
take the reviewer from the body when it is a string, stamp `approvedAt`,
and set the status to `approved`. -/
def approveJob (job : Job) (reviewerBody : Option String) (now : Nat) : Job :=
  let j1 := { job with reviewer := match reviewerBody with
                                   | some r => some r
                                   | none => job.reviewer }
  let j2 := { j1 with approvedAt := some now }
  setJobStatus j2 .approved now

/-- Body of the `POST /jobs/:id/deny` handler once the job is found. -/
def denyJob (job : Job) (reviewerBody : Option String) (now : Nat) : Job :=
  let j1 := { job with reviewer := match reviewerBody with
                                   | some r => some r
                                   | none => job.reviewer }
  let j2 := { j1 with deniedAt := some now }
  setJobStatus j2 .denied now

/-- The approve route: 404 when the job id is unknown, otherwise 200 with
the mutated job. -/
def handleApprove (job : Option Job) (reviewerBody : Option String) (now : Nat) :
    Nat × Option Job :=
  match job with
  | none => (404, none)
  | some j => (200, some (approveJob j reviewerBody now))

/-- The deny route: 404 when the job id is unknown, otherwise 200 with the
mutated job. -/
def handleDeny (job : Option Job) (reviewerBody : Option String) (now : Nat) :
    Nat × Option Job :=
  match job with
  | none => (404, none)
  | some j => (200, some (denyJob j reviewerBody now))

/-! ## Pipeline orchestrator: URL merge (part_009 `main`, lines 657–667) -/

structure SearchResult where
  query : List Char
  urls : List (List Char)
deriving Repr, DecidableEq

/-- Push each URL unless already seen.  In the source the `seen` set always
holds exactly the elements already pushed to `orderedUrls`, so the set is
represented by membership in the accumulator. -/
def mergeInto (acc : List (List Char)) (urls : List (List Char)) : List (List Char) :=
  urls.foldl (fun a u => if u ∈ a then a else a ++ [u]) acc

/-- The orchestrator's URL merge loop over all per-query search results. -/
def mergeUrls (results : List SearchResult) : List (List Char) :=
  results.foldl (fun acc r => mergeInto acc r.urls) []

/-- Modelled from the spec's ordering guarantee: duplicates are coalesced
to their first occurrence, preserving first-seen order, over the
concatenation of all per-query URL lists. -/
def specFirstSeenDedup (l : List (List Char)) : List (List Char) :=
  l.foldl (fun a u => if u ∈ a then a else a ++ [u]) []

/-- `urlsToScrape`: the merged list truncated to `maxUrls`. -/
def urlsToScrape (results : List SearchResult) (maxUrls : Nat) : List (List Char) :=
  (mergeUrls results).take maxUrls

/-! ## Query generator (part_014)

`normalizeQueries` is the line-based normalizer of the first generator
version; `validateAndNormalizeQueries` is the strict validator of the
second version (its thrown `Error` is modelled as `Except.error`). -/

/-- The characters of the bullet class `[-*â€¢]` in the source.  (The
source file stores the bullet point in a double-encoded form, so the class
consists of these five literal characters.) -/
def bulletChars : List Char := ['-', '*', 'â', '€', '¢']

/-- `line.match(/^[-*â€¢]\s*(.+)$/)`, returning the trimmed first capture
group.  The regex matches iff the line starts with a bullet character and
has at least one further character; backtracking of `\s*` against `(.+)`
makes the trimmed capture equal to `jsTrim` of the rest without its leading
whitespace (when the rest is all whitespace both sides are empty). -/
def stripBullet (l : List Char) : Option (List Char) :=
  match l with
  | [] => none
  | c :: rest =>
    if c ∈ bulletChars ∧ rest ≠ [] then some (jsTrim (rest.dropWhile isWsChar))
    else none

/-- `line.match(/^\d+\.\s*(.+)$/)`, returning the trimmed first capture
group: one or more digits, a literal dot, then as for `stripBullet`. -/
def stripNumberDot (l : List Char) : Option (List Char) :=
  let ds := l.takeWhile isDigitChar
  let rest := l.drop ds.length
  if ds ≠ [] then
    match rest with
    | '.' :: rest2 =>
      if rest2 ≠ [] then some (jsTrim (rest2.dropWhile isWsChar)) else none
    | _ => none
  else none

/-- One line of the `cleaned` map: strip a bullet, else strip `N.`
numbering, else keep the line. -/
def cleanQueryLine (line : List Char) : List Char :=
  match stripBullet line with
  | some r => r
  | none =>
    match stripNumberDot line with
    | some r => r
    | none => line

/-- The dedup-and-cap loop: push unseen queries, stopping as soon as ten
are collected. -/
def dedupeCap (acc : List (List Char)) : List (List Char) → List (List Char)
  | [] => acc
  | q :: rest =>
    let acc' := if q ∈ acc then acc else acc ++ [q]
    if acc'.length = 10 then acc' else dedupeCap acc' rest

/-- The padding loop `while (unique.length < 10) unique.push(unique[i %
unique.length])`; the guard `0 < u.length` comes from the enclosing
`if (unique.length > 0 && ...)` and prevents the degenerate empty case. -/
def padLoop (i : Nat) (u : List (List Char)) : List (List Char) :=
  if _h : 0 < u.length ∧ u.length < 10 then
    padLoop (i + 1) (u ++ [u.getD (i % u.length) []])
  else u
termination_by 10 - u.length
decreasing_by
  simp only [List.length_append, List.length_cons, List.length_nil]
  omega

/-- `normalizeQueries`: split the model output on newlines, trim, drop
empty lines, strip bullets/numbering, dedupe capped at ten, pad by cycling
when short, and clamp to ten. -/
def normalizeQueries (raw : List Char) : List (List Char) :=
  let lines := ((splitOnChar '\n' raw).map jsTrim).filter (fun l => l ≠ [])
  let cleaned := lines.map cleanQueryLine
  let unique := dedupeCap [] cleaned
  let padded := padLoop 0 unique
  padded.take 10

/-- `validateAndNormalizeQueries`: trim, drop empties and duplicates (the
`seen` set holds exactly the elements of `unique` and is represented by
membership), then insist on exactly ten queries. -/
def validateAndNormalizeQueries (queries : List (List Char)) :
    Except (List Char) (List (List Char)) :=
  let unique := queries.foldl
    (fun acc q =>
      let cleaned := jsTrim q
      if cleaned = [] ∨ cleaned ∈ acc then acc else acc ++ [cleaned]) []
  if unique.length = 10 then .ok unique
  else .error ("Expected exactly 10 distinct queries, got ".data ++
    natChars unique.length ++ ".".data)

/-- The text persisted by `saveQueriesToFile`: `queries.join('\n')`. -/
def queryFileContent (queries : List (List Char)) : List Char :=
  joinWithChar '\n' queries

/-! ## JSON values and a model of `JSON.parse` (part_009)

The extraction script manipulates dynamically-typed values obtained from
`JSON.parse`.  They are modelled by `JsonVal`; JSON numbers are modelled
as exact rationals (no numeric value computed by the script is ever
consulted by a claim). -/

inductive JsonVal where
  | null
  | bool (b : Bool)
  | num (q : Rat)
  | str (s : List Char)
  | arr (items : List JsonVal)
  | obj (fields : List (List Char × JsonVal))
deriving Repr

/-- The opening and closing brace characters. -/
def lbrace : Char := Char.ofNat 123

def rbrace : Char := Char.ofNat 125

/-- First binding of a key in an object's field list (the parser keeps
keys unique, overwriting duplicates as `JSON.parse` does). -/
def jGet (fields : List (List Char × JsonVal)) (key : List Char) : Option JsonVal :=
  match fields with
  | [] => none
  | (k, v) :: rest => if k = key then some v else jGet rest key

/-- JavaScript truthiness of a parsed JSON value. -/
def jsTruthy : JsonVal → Bool
  | .null => false
  | .bool b => b
  | .num q => q ≠ 0
  | .str s => s ≠ []
  | .arr _ => true
  | .obj _ => true

/-- `x && typeof x === 'object'`: a truthy value of object type (arrays
are objects in JavaScript; `null` is excluded by truthiness). -/
def isObjectLike : JsonVal → Bool
  | .obj _ => true
  | .arr _ => true
  | _ => false

/-- The named fields reachable by property access: only plain objects have
them (property access on arrays, strings, numbers for the field names used
by the script always yields `undefined`). -/
def jFieldsOf : JsonVal → List (List Char × JsonVal)
  | .obj f => f
  | _ => []

/-- Numeric value of a nonempty digit string. -/
def digitsToNat (ds : List Char) : Nat :=
  ds.foldl (fun a c => a * 10 + (c.toNat - '0'.toNat)) 0

/-- JSON whitespace (the only four characters `JSON.parse` skips). -/
def isJsonWs (c : Char) : Bool :=
  c = ' ' || c = '\t' || c = '\n' || c = '\x0d'

/-- Insert a key into an object under construction, overwriting an earlier
binding in place (the `JSON.parse` duplicate-key rule: first position,
last value). -/
def objInsert (fields : List (List Char × JsonVal)) (k : List Char) (v : JsonVal) :
    List (List Char × JsonVal) :=
  match fields with
  | [] => [(k, v)]
  | (k', v') :: rest =>
    if k' = k then (k', v) :: rest else (k', v') :: objInsert rest k v

/-- Hexadecimal digit value. -/
def hexVal (c : Char) : Option Nat :=
  if '0' ≤ c ∧ c ≤ '9' then some (c.toNat - '0'.toNat)
  else if 'a' ≤ c ∧ c ≤ 'f' then some (c.toNat - 'a'.toNat + 10)
  else if 'A' ≤ c ∧ c ≤ 'F' then some (c.toNat - 'A'.toNat + 10)
  else none

/-- Body of a JSON string literal (after the opening quote), with the
standard escapes. -/
def parseStringBody (fuel : Nat) (l : List Char) : Option (List Char × List Char) :=
  match fuel, l with
  | 0, _ => none
  | _ + 1, [] => none
  | f + 1, c :: rest =>
    if c = '"' then some ([], rest)
    else if c = '\\' then
      match rest with
      | [] => none
      | e :: rest2 =>
        let esc : Option (Char × List Char) :=
          if e = '"' then some ('"', rest2)
          else if e = '\\' then some ('\\', rest2)
          else if e = '/' then some ('/', rest2)
          else if e = 'b' then some (Char.ofNat 8, rest2)
          else if e = 'f' then some (Char.ofNat 12, rest2)
          else if e = 'n' then some ('\n', rest2)
          else if e = 'r' then some ('\x0d', rest2)
          else if e = 't' then some ('\t', rest2)
          else if e = 'u' then
            match rest2 with
            | h1 :: h2 :: h3 :: h4 :: rest3 =>
              match hexVal h1, hexVal h2, hexVal h3, hexVal h4 with
              | some a, some b, some c', some d =>
                some (Char.ofNat (((a * 16 + b) * 16 + c') * 16 + d), rest3)
              | _, _, _, _ => none
            | _ => none
          else none
        match esc with
        | some (ch, r) => (parseStringBody f r).map (fun p => (ch :: p.1, p.2))
        | none => none
    else (parseStringBody f rest).map (fun p => (c :: p.1, p.2))

/-- A JSON number literal: `-?(0|[1-9][0-9]*)(\.[0-9]+)?([eE][+-]?[0-9]+)?`. -/
def parseJsonNumber (l : List Char) : Option (JsonVal × List Char) :=
  let (neg, l1) := match l with
    | '-' :: r => (true, r)
    | _ => (false, l)
  let intDs := l1.takeWhile isDigitChar
  if intDs = [] then none
  else if 1 < intDs.length ∧ intDs.headD '0' = '0' then none
  else
    let l2 := l1.drop intDs.length
    let hasFrac := match l2 with
      | '.' :: _ => true
      | _ => false
    let fracDs := match l2 with
      | '.' :: r => r.takeWhile isDigitChar
      | _ => []
    if hasFrac ∧ fracDs = [] then none
    else
      let l3 := if hasFrac then (l2.drop 1).drop fracDs.length else l2
      let hasExp := match l3 with
        | 'e' :: _ => true
        | 'E' :: _ => true
        | _ => false
      let (expNeg, expDs, l4) :=
        if hasExp then
          match l3.drop 1 with
          | '-' :: r => (true, r.takeWhile isDigitChar, r.drop (r.takeWhile isDigitChar).length)
          | '+' :: r => (false, r.takeWhile isDigitChar, r.drop (r.takeWhile isDigitChar).length)
          | r => (false, r.takeWhile isDigitChar, r.drop (r.takeWhile isDigitChar).length)
        else (false, [], l3)
      if hasExp ∧ expDs = [] then none
      else
        let mantissa : Rat := (digitsToNat (intDs ++ fracDs) : Nat)
        let base : Rat := mantissa / ((10 : Rat) ^ fracDs.length)
        let scaled : Rat :=
          if expDs = [] then base
          else if expNeg then base / ((10 : Rat) ^ digitsToNat expDs)
          else base * ((10 : Rat) ^ digitsToNat expDs)
        some (.num (if neg then -scaled else scaled), l4)

mutual

/-- One JSON value, fuel-bounded (the fuel chosen by `jsonParse` is ample
for every input the development evaluates). -/
def parseJsonVal : Nat → List Char → Option (JsonVal × List Char)
  | 0, _ => none
  | f + 1, l =>
    let l := l.dropWhile isJsonWs
    match l with
    | 'n' :: 'u' :: 'l' :: 'l' :: r => some (.null, r)
    | 't' :: 'r' :: 'u' :: 'e' :: r => some (.bool true, r)
    | 'f' :: 'a' :: 'l' :: 's' :: 'e' :: r => some (.bool false, r)
    | '"' :: r => (parseStringBody (f + 1) r).map (fun p => (.str p.1, p.2))
    | c :: r =>
      if c = '[' then
        let r' := r.dropWhile isJsonWs
        match r' with
        | ']' :: r2 => some (.arr [], r2)
        | _ =>
          match parseJsonVal f r' with
          | some (v, rest) => parseJsonArrayRest f [v] rest
          | none => none
      else if c = lbrace then
        let r' := r.dropWhile isJsonWs
        match r' with
        | k :: r2 =>
          if k = rbrace then some (.obj [], r2)
          else parseJsonObjRest f [] (k :: r2) true
        | [] => none
      else parseJsonNumber (c :: r)
    | [] => none

/-- The remaining elements of an array, after the first. -/
def parseJsonArrayRest : Nat → List JsonVal → List Char → Option (JsonVal × List Char)
  | 0, _, _ => none
  | f + 1, acc, l =>
    match l.dropWhile isJsonWs with
    | ']' :: r => some (.arr acc.reverse, r)
    | ',' :: r =>
      match parseJsonVal f r with
      | some (v, rest) => parseJsonArrayRest f (v :: acc) rest
      | none => none
    | _ => none

/-- The members of an object; `expectMember` is true before a member is
read (at the start and after each comma). -/
def parseJsonObjRest : Nat → List (List Char × JsonVal) → List Char → Bool →
    Option (JsonVal × List Char)
  | 0, _, _, _ => none
  | f + 1, acc, l, expectMember =>
    let l' := l.dropWhile isJsonWs
    if expectMember then
      match l' with
      | '"' :: r =>
        match parseStringBody (f + 1) r with
        | some (key, rest) =>
          match rest.dropWhile isJsonWs with
          | ':' :: r2 =>
            match parseJsonVal f r2 with
            | some (v, rest2) => parseJsonObjRest f (objInsert acc key v) rest2 false
            | none => none
          | _ => none
        | none => none
      | _ => none
    else
      match l' with
      | ',' :: r => parseJsonObjRest f acc r true
      | c :: r => if c = rbrace then some (.obj acc, r) else none
      | [] => none

end

/-- Model of `JSON.parse`: parse one value and insist on only whitespace
after it; a parse error (an exception in JavaScript) is `none`. -/
def jsonParse (s : List Char) : Option JsonVal :=
  match parseJsonVal (2 * s.length + 2) s with
  | some (v, rest) => if rest.dropWhile isJsonWs = [] then some v else none
  | none => none

/-! ## Heuristic extractor helpers (part_009, lines 110–553) -/

/-- Word characters, the JavaScript `\w` class. -/
def isWordChar (c : Char) : Bool :=
  ('a' ≤ c && c ≤ 'z') || ('A' ≤ c && c ≤ 'Z') || isDigitChar c || c = '_'

/-- Collapse every whitespace run to a single space
(`text.replace(/\s+/g, ' ')`); `seenWs` is true inside a run. -/
def collapseWsAux (seenWs : Bool) : List Char → List Char
  | [] => []
  | c :: rest =>
    if isWsChar c then
      if seenWs then collapseWsAux true rest
      else ' ' :: collapseWsAux true rest
    else c :: collapseWsAux false rest

/-- `normalizeWhitespace`: collapse whitespace runs, then trim. -/
def normalizeWhitespace (l : List Char) : List Char :=
  jsTrim (collapseWsAux false l)

/-- The test `/\b--[a-z-]+\s*:/` (on an already lower-cased line): a `--`
preceded by a word character (the word boundary), one or more characters
in `[a-z-]`, optional whitespace, then a colon.  `prev` is the character
before the current scan position. -/
def cssVarScan (prev : Option Char) : List Char → Bool
  | [] => false
  | c :: rest =>
    (match c, rest with
     | '-', '-' :: rest2 =>
       (match prev with
        | some p => isWordChar p
        | none => false) &&
       (let run := rest2.takeWhile (fun x => ('a' ≤ x && x ≤ 'z') || x = '-')
        !run.isEmpty &&
          (match (rest2.drop run.length).dropWhile isWsChar with
           | ':' :: _ => true
           | _ => false))
     | _, _ => false) ||
    cssVarScan (some c) rest

/-- The test `/\.fe-\w+/`: a literal `.fe-` followed by a word character. -/
def feClassScan : List Char → Bool
  | [] => false
  | c :: rest =>
    (match c, rest with
     | '.', 'f' :: 'e' :: '-' :: d :: _ => isWordChar d
     | _, _ => false) ||
    feClassScan rest

/-- `haystack.includes(needle)`: substring test. -/
def hasSub (sub : List Char) : List Char → Bool
  | [] => sub.isEmpty
  | c :: rest => sub.isPrefixOf (c :: rest) || hasSub sub rest

/-- `isNoisyLine`: style-sheet fragments and layout tokens. -/
def isNoisyLine (line : List Char) : Bool :=
  let lower := lowerStr line
  hasSub "sqs-".data lower || hasSub "squarespace".data lower ||
  hasSub "grid-area".data lower || hasSub "grid-gutter".data lower ||
  hasSub "cell-max-width".data lower || hasSub "calc(".data lower ||
  hasSub "var(".data lower ||
  cssVarScan none lower ||
  feClassScan lower ||
  line.any (fun c => c = lbrace || c = rbrace)

/-- Remove a carriage return preceding the newline a piece was split at. -/
def stripTrailingCR (l : List Char) : List Char :=
  match l.reverse with
  | '\x0d' :: r => r.reverse
  | _ => l

/-- `text.split(/\r?\n/)`: split on newlines, swallowing a carriage return
immediately before each newline (the last piece keeps a bare trailing
carriage return, which the subsequent whitespace normalization removes
anyway). -/
def splitLines (text : List Char) : List (List Char) :=
  let parts := splitOnChar '\n' text
  parts.dropLast.map stripTrailingCR ++ parts.drop (parts.length - 1)

/-- `cleanTextLines`: split, normalize, drop empty and noisy lines. -/
def cleanTextLines (text : List Char) : List (List Char) :=
  let lines := ((splitLines text).map normalizeWhitespace).filter (fun l => !l.isEmpty)
  lines.filter (fun line => !isNoisyLine line)

/-- The lazy match `/^(.*?[.!?])\s/`: the shortest prefix ending in a
sentence terminator followed by whitespace.  `acc` is the reversed prefix
scanned so far. -/
def firstSentenceAux (acc : List Char) : List Char → Option (List Char)
  | c :: w :: rest =>
    if (c = '.' ∨ c = '!' ∨ c = '?') ∧ isWsChar w then some (c :: acc).reverse
    else firstSentenceAux (c :: acc) (w :: rest)
  | _ => none

/-- `extractDescriptionFallback`: join the cleaned lines, take the first
sentence, else the first 240 characters. -/
def extractDescriptionFallback (text : List Char) : List Char :=
  let cleaned := joinWithChar ' ' (cleanTextLines text)
  if cleaned = [] then []
  else
    match firstSentenceAux [] cleaned with
    | some sentence => sentence.take 240
    | none => cleaned.take 240

/-- `firstNonEmpty`: the first value that is a string with nonempty trim,
returned trimmed (`none` models `undefined`/`null`/non-string entries). -/
def firstNonEmpty (values : List (Option (List Char))) : List Char :=
  match values with
  | [] => []
  | v :: rest =>
    match v with
    | some s => if jsTrim s = [] then firstNonEmpty rest else jsTrim s
    | none => firstNonEmpty rest

/-- `dedupeStrings`: normalize whitespace and drop empties and duplicates
(the `seen` set holds exactly the elements already pushed and is
represented by membership in the accumulator). -/
def dedupeStrings (values : List (List Char)) : List (List Char) :=
  values.foldl
    (fun out value =>
      let normalized := normalizeWhitespace value
      if normalized = [] ∨ normalized ∈ out then out else out ++ [normalized]) []

/-- Models the WHATWG `URL` constructor as used by `toOriginUrl`: scheme,
then `://`, then the host up to the first `/`, `?` or `#`; `none` models
the constructor throwing. -/
def urlOriginModel (raw : List Char) : Option (List Char) :=
  let scheme := raw.takeWhile (fun c => isWordChar c || c = '+' || c = '-' || c = '.')
  match raw.drop scheme.length with
  | ':' :: rest =>
    if scheme = [] then none
    else
      let host := match rest with
        | '/' :: '/' :: r => r.takeWhile (fun c => !(c = '/' || c = '?' || c = '#'))
        | _ => []
      some (lowerStr scheme ++ ':' :: '/' :: '/' :: host)
  | _ => none

/-- `toOriginUrl`: `${url.protocol}//${url.host}`, or the raw string when
the URL constructor throws, or `''` for an empty input. -/
def toOriginUrl (raw : List Char) : List Char :=
  if raw = [] then []
  else
    match urlOriginModel raw with
    | some origin => origin
    | none => raw

/-- Models the `parseFloat` builtin: skip leading whitespace, then parse
the longest prefix of the form `[+-]?(\d+(\.\d*)?|\.\d+)([eE][+-]?\d+)?`;
`none` models `NaN`. -/
def parseFloatModel (s : List Char) : Option Rat :=
  let l := s.dropWhile isWsChar
  let (neg, l1) := match l with
    | '-' :: r => (true, r)
    | '+' :: r => (false, r)
    | _ => (false, l)
  let intDs := l1.takeWhile isDigitChar
  let l2 := l1.drop intDs.length
  let fracDs := match l2 with
    | '.' :: r => r.takeWhile isDigitChar
    | _ => []
  if intDs = [] ∧ fracDs = [] then none
  else
    let l3 := match l2 with
      | '.' :: r => r.drop fracDs.length
      | _ => l2
    let expPart : Option (Bool × List Char) := match l3 with
      | 'e' :: r =>
        (match r with
         | '-' :: r2 => some (true, r2.takeWhile isDigitChar)
         | '+' :: r2 => some (false, r2.takeWhile isDigitChar)
         | _ => some (false, r.takeWhile isDigitChar))
      | 'E' :: r =>
        (match r with
         | '-' :: r2 => some (true, r2.takeWhile isDigitChar)
         | '+' :: r2 => some (false, r2.takeWhile isDigitChar)
         | _ => some (false, r.takeWhile isDigitChar))
      | _ => none
    let base : Rat := (digitsToNat (intDs ++ fracDs) : Nat) / ((10 : Rat) ^ fracDs.length)
    let scaled : Rat := match expPart with
      | some (expNeg, expDs) =>
        if expDs = [] then base
        else if expNeg then base / ((10 : Rat) ^ digitsToNat expDs)
        else base * ((10 : Rat) ^ digitsToNat expDs)
      | none => base
    some (if neg then -scaled else scaled)

/-- `toNumber`: a finite number is kept; a string with nonempty trim goes
through `parseFloat`; everything else is `null`.  (Rationals model only
finite doubles, so the `Number.isFinite` guards always pass.) -/
def toNumber (value : Option JsonVal) : Option Rat :=
  match value with
  | some (.num q) => some q
  | some (.str s) => if jsTrim s = [] then none else parseFloatModel s
  | _ => none

/-- The nullish-coalescing operator `a ?? b` on possibly-absent values. -/
def nullish (a b : Option JsonVal) : Option JsonVal :=
  match a with
  | some .null => b
  | none => b
  | some v => some v

theorem sum_sizes_lt (l : List JsonVal) : (l.map (fun v => sizeOf v)).sum < sizeOf l := by
  induction l with
  | nil => simp
  | cons a as ih =>
    simp only [List.map_cons, List.sum_cons, List.cons.sizeOf_spec]
    omega

theorem jGet_size_lt (fields : List (List Char × JsonVal)) (key : List Char)
    (v : JsonVal) (h : jGet fields key = some v) : sizeOf v < sizeOf fields := by
  induction fields with
  | nil => simp [jGet] at h
  | cons kv rest ih =>
    obtain ⟨k', v'⟩ := kv
    rw [jGet] at h
    split at h
    · injection h with h'
      subst h'
      simp only [List.cons.sizeOf_spec, Prod.mk.sizeOf_spec]
      omega
    · have := ih h
      simp only [List.cons.sizeOf_spec]
      omega

theorem jsonVal_sizeOf_pos (v : JsonVal) : 0 < sizeOf v := by
  cases v <;> simp_arith

/-- `collectLdObjects`'s worklist loop.  The JavaScript stack pushes to
and pops from the array end, so the model's list head is the stack top
and a spread-pushed array lands reversed. -/
def collectLd (stack : List JsonVal) : List (List (List Char × JsonVal)) :=
  match stack with
  | [] => []
  | item :: rest =>
    match item with
    | .arr items => collectLd (items.reverse ++ rest)
    | .obj fields =>
      let nextStack := match jGet fields "@graph".data with
        | some g => if jsTruthy g then g :: rest else rest
        | none => rest
      fields :: collectLd nextStack
    | _ => collectLd rest
termination_by (stack.map (fun v => sizeOf v)).sum
decreasing_by
  · simp only [List.map_cons, List.sum_cons, List.map_append, List.sum_append,
      List.map_reverse, List.sum_reverse, JsonVal.arr.sizeOf_spec]
    have := sum_sizes_lt items
    omega
  · simp only [List.map_cons, List.sum_cons, JsonVal.obj.sizeOf_spec]
    split
    · rename_i g hg
      split
      · simp only [List.map_cons, List.sum_cons]
        have := jGet_size_lt fields _ g hg
        omega
      · omega
    · omega
  · rename JsonVal => other
    simp only [List.map_cons, List.sum_cons]
    have := jsonVal_sizeOf_pos other
    omega

/-- `collectLdObjects`: flatten `metadata.ld_json` (a value, an array, and
nested `@graph` members) into the list of plain objects encountered.
A falsy or absent input contributes nothing. -/
def collectLdObjects (input : Option JsonVal) : List (List (List Char × JsonVal)) :=
  match input with
  | none => []
  | some (.arr items) => collectLd items.reverse
  | some v => collectLd [v]

/-- `extractLdName`: first item whose `name` is a string with nonempty
trim (returned trimmed), else the first string found inside a `name`
array. -/
def extractLdName (items : List (List (List Char × JsonVal))) : List Char :=
  match items with
  | [] => []
  | item :: rest =>
    match jGet item "name".data with
    | some (.str s) =>
      if jsTrim s = [] then extractLdName rest else jsTrim s
    | some (.arr vals) =>
      match vals.find? (fun v =>
        match v with
        | .str s => !(jsTrim s).isEmpty
        | _ => false) with
      | some (.str s) => jsTrim s
      | _ => extractLdName rest
    | _ => extractLdName rest

/-- `extractLdDescription`: first item whose `description` is a string
with nonempty trim. -/
def extractLdDescription (items : List (List (List Char × JsonVal))) : List Char :=
  match items with
  | [] => []
  | item :: rest =>
    match jGet item "description".data with
    | some (.str s) =>
      if jsTrim s = [] then extractLdDescription rest else jsTrim s
    | _ => extractLdDescription rest

/-- One trimmed address part when the field is a nonempty string. -/
def addressPart (fields : List (List Char × JsonVal)) (key : List Char) :
    Option (List Char) :=
  match jGet fields key with
  | some (.str s) => if jsTrim s = [] then none else some (jsTrim s)
  | _ => none

/-- `extractLdAddress`: a literal address string, or the nonempty parts of
a composed address object joined with `', '`.  (An array passes the
`typeof === 'object'` guard but has none of the named parts.) -/
def extractLdAddress (items : List (List (List Char × JsonVal))) : List Char :=
  match items with
  | [] => []
  | item :: rest =>
    match jGet item "address".data with
    | some (.str s) =>
      if jsTrim s = [] then extractLdAddress rest else jsTrim s
    | some (.obj addrFields) =>
      let parts := ["streetAddress".data, "addressLocality".data, "addressRegion".data,
        "postalCode".data, "addressCountry".data].filterMap (addressPart addrFields)
      if parts = [] then extractLdAddress rest
      else List.intercalate ", ".data parts
    | _ => extractLdAddress rest

/-- `extractLdGeo`: the first `geo` object yielding at least one finite
number from `latitude`/`lat` and `longitude`/`lng`/`lon`. -/
def extractLdGeo (items : List (List (List Char × JsonVal))) :
    Option Rat × Option Rat :=
  match items with
  | [] => (none, none)
  | item :: rest =>
    match jGet item "geo".data with
    | some (.obj gf) =>
      let latitude := toNumber (nullish (jGet gf "latitude".data) (jGet gf "lat".data))
      let longitude := toNumber (nullish (jGet gf "longitude".data)
        (nullish (jGet gf "lng".data) (jGet gf "lon".data)))
      if latitude.isSome || longitude.isSome then (latitude, longitude)
      else extractLdGeo rest
    | _ => extractLdGeo rest

/-- The `href` property of a link entry when it is a string (the scraper's
link entries carry string `href`s; a falsy value reads as `''`). -/
def linkHref (link : JsonVal) : List Char :=
  match jGet (jFieldsOf link) "href".data with
  | some (.str s) => s
  | _ => []

/-- `href.slice(n).split(/[?#]/)[0].trim()`. -/
def schemeRest (n : Nat) (href : List Char) : List Char :=
  jsTrim ((href.drop n).takeWhile (fun c => !(c = '?' || c = '#')))

/-- The scan loop of `extractContactFromLinks` (the early `break` once
both are found merely skips iterations that could no longer change
anything). -/
def contactLoop (phone email : List Char) : List JsonVal → List Char × List Char
  | [] => (phone, email)
  | link :: rest =>
    let href := jsTrim (linkHref link)
    if href = [] then contactLoop phone email rest
    else
      let phone' :=
        if phone = [] ∧ "tel:".data.isPrefixOf (lowerStr href) then schemeRest 4 href
        else phone
      let email' :=
        if email = [] ∧ "mailto:".data.isPrefixOf (lowerStr href) then schemeRest 7 href
        else email
      contactLoop phone' email' rest

/-- `extractContactFromLinks`: first `tel:` and first `mailto:` hrefs. -/
def extractContactFromLinks (links : List JsonVal) : List Char × List Char :=
  contactLoop [] [] links

/-! ## Hour-token normalization (part_009, lines 299–318) -/

/-- Up to two leading digits, greedily.  The regex `^(\d{1,2})…$` never
needs to backtrack to one digit: when two digits are available the
follow-up after one digit starts with a digit, which none of `:(\d{2})`,
`\s*`, `am|pm`, or the anchor can consume. -/
def takeDigits2 (l : List Char) : List Char × List Char :=
  match l with
  | c1 :: rest =>
    if isDigitChar c1 then
      match rest with
      | c2 :: rest2 =>
        if isDigitChar c2 then ([c1, c2], rest2) else ([c1], rest)
      | [] => ([c1], [])
    else ([], l)
  | [] => ([], l)

/-- `${hour}`.padStart(2, '0'). -/
def padStart2 (l : List Char) : List Char :=
  if l.length < 2 then List.replicate (2 - l.length) '0' ++ l else l

/-- The core of `toPeriodTime` on the trimmed lower-cased token: the match
`^(\d{1,2})(?::(\d{2}))?\s*(am|pm)?$` followed by the meridiem hour
adjustment; `none` models the `return null` paths. -/
def toPeriodTimeCore (raw : List Char) : Option (List Char) :=
  match takeDigits2 raw with
  | ([], _) => none
  | (ds, rest1) =>
    let minutePart : Option (List Char) × List Char :=
      match rest1 with
      | ':' :: d1 :: d2 :: r =>
        if isDigitChar d1 ∧ isDigitChar d2 then (some [d1, d2], r) else (none, rest1)
      | _ => (none, rest1)
    let rest2 := minutePart.2.dropWhile isWsChar
    let meridiem : Option Bool × List Char :=
      match rest2 with
      | 'a' :: 'm' :: r => (some true, r)
      | 'p' :: 'm' :: r => (some false, r)
      | _ => (none, rest2)
    if meridiem.2 = [] then
      let hour0 := digitsToNat ds
      let minute := minutePart.1.getD ['0', '0']
      let hour :=
        match meridiem.1 with
        | some false => if hour0 < 12 then hour0 + 12 else hour0
        | some true => if hour0 = 12 then 0 else hour0
        | none => hour0
      some (padStart2 (natChars hour) ++ minute)
    else none

/-- `toPeriodTime`: non-strings are `null`; strings are trimmed,
lower-cased and normalized to a 4-digit 24-hour token when they match. -/
def toPeriodTime (value : JsonVal) : Option (List Char) :=
  match value with
  | .str s => toPeriodTimeCore (lowerStr (jsTrim s))
  | _ => none

/-! ## The sanity document (part_009, lines 555–632) -/

/-- One `{open: {day, time}, close: {day, time}}` hours period. -/
structure HoursPeriod where
  openDay : Nat
  openTime : List Char
  closeDay : Nat
  closeTime : List Char
deriving Repr, DecidableEq

/-- `{periods, weekdayText}`. -/
structure HoursData where
  periods : List HoursPeriod
  weekdayText : List (List Char)
deriving Repr, DecidableEq

/-- The JSON form of one hours period. -/
def periodToJson (p : HoursPeriod) : JsonVal :=
  .obj [("open".data, .obj [("day".data, .num p.openDay), ("time".data, .str p.openTime)]),
        ("close".data, .obj [("day".data, .num p.closeDay), ("time".data, .str p.closeTime)])]

/-- A Sanity rich-text block holding one span of text. -/
def sanityBlock (text : List Char) : JsonVal :=
  .obj [("_type".data, .str "block".data),
        ("children".data, .arr [.obj [("_type".data, .str "span".data),
                                      ("text".data, .str text)]]),
        ("markDefs".data, .arr []),
        ("style".data, .str "normal".data)]

/-- A number-or-null JSON value. -/
def ratOrNull : Option Rat → JsonVal
  | some q => .num q
  | none => .null

/-- The object literal returned by `buildSanityDoc` (factored out of the
`return` statement). -/
def mkSanityDoc (name descriptionText address : List Char)
    (location : Option Rat × Option Rat) (category : List Char)
    (hours : HoursData) (phone email website : List Char) : JsonVal :=
  .obj [
    ("name".data, .str name),
    ("description".data, .arr [sanityBlock descriptionText]),
    ("address".data, .str address),
    ("location".data, .obj [("latitude".data, ratOrNull location.1),
                            ("longitude".data, ratOrNull location.2)]),
    ("serviceTypes".data, .arr [.obj [("_id".data, .str category)]]),
    ("hoursOfOperation".data,
      .obj [("periods".data, .arr (hours.periods.map periodToJson)),
            ("weekdayText".data, .arr (hours.weekdayText.map JsonVal.str))]),
    ("contact".data, .obj [("phone".data, .str phone),
                           ("email".data, .str email),
                           ("website".data, .str website)])]

/-- A property read `x?.key` on a possibly-absent value. -/
def optProp (x : Option JsonVal) (key : List Char) : Option JsonVal :=
  match x with
  | some v => jGet (jFieldsOf v) key
  | none => none

/-- A value used where a string is expected: `none` for `undefined`,
`null`, and non-string values. -/
def asStr : Option JsonVal → Option (List Char)
  | some (.str s) => some s
  | _ => none

/-- `buildSanityDoc`: assemble the fallback record from the parsed scraper
output, the category, the fallback URL, and the extracted hours. -/
def buildSanityDoc (scraped : JsonVal) (category fallbackUrl : List Char)
    (hours : HoursData) : JsonVal :=
  let dataFields := jFieldsOf scraped
  let metadata := match jGet dataFields "metadata".data with
    | some m => if jsTruthy m && isObjectLike m then some m else none
    | none => none
  let ldItems := collectLdObjects (optProp metadata "ld_json".data)
  let og := optProp metadata "og".data
  let name := firstNonEmpty [asStr (optProp og "title".data),
    asStr (optProp metadata "title".data), some (extractLdName ldItems)]
  let rawDescription := firstNonEmpty [asStr (optProp og "description".data),
    asStr (optProp metadata "description".data), some (extractLdDescription ldItems)]
  let innerData := jGet dataFields "data".data
  let text := match optProp innerData "text".data with
    | some (.str s) => s
    | _ => []
  let textFallback := extractDescriptionFallback text
  let descriptionText := firstNonEmpty [some rawDescription, some textFallback]
  let address := extractLdAddress ldItems
  let location := extractLdGeo ldItems
  let links := match optProp innerData "links".data with
    | some (.arr ls) => ls
    | _ => []
  let contact := extractContactFromLinks links
  let website := toOriginUrl (firstNonEmpty [asStr (jGet dataFields "final_url".data),
    asStr (jGet dataFields "url".data), some fallbackUrl])
  let finalName := if name = [] then website else name
  mkSanityDoc finalName descriptionText address location category hours
    contact.1 contact.2 website

/-- An agent-history entry `{role?, content?}`; in this pipeline the
`content` of every history message is a string or `null`, so the
`JSON.stringify` branch for non-string truthy content never runs. -/
structure HistMsg where
  role : Option String := none
  content : Option (List Char) := none
deriving Repr, DecidableEq

/-- `[...history].reverse().find(msg => msg.role === 'assistant' &&
msg.content)`: the content of the last assistant message with truthy
content. -/
def lastAssistantContent (history : List HistMsg) : Option (List Char) :=
  history.reverse.findSome? (fun m =>
    if m.role = some "assistant" then
      match m.content with
      | some s => if s = [] then none else some s
      | none => none
    else none)

/-- `parseAgentOutput`: strict parse first; on a parse error, retry on the
substring between the first `{` and the last `}`; a successfully parsed
non-object falls through to `null`. -/
def parseAgentOutput (history : List HistMsg) : Option JsonVal :=
  match lastAssistantContent history with
  | none => none
  | some raw =>
    match jsonParse raw with
    | some v => if isObjectLike v then some v else none
    | none =>
      match raw.findIdx? (fun c => c = lbrace), raw.reverse.findIdx? (fun c => c = rbrace) with
      | some first, some revIdx =>
        let lastIdx := raw.length - 1 - revIdx
        if first < lastIdx then
          match jsonParse ((raw.drop first).take (lastIdx + 1 - first)) with
          | some v => if isObjectLike v then some v else none
          | none => none
        else none
      | _, _ => none

/-- Which path produced a record. -/
inductive ExtractMethod where
  | agent
  | fallback
deriving Repr, DecidableEq

/-- The per-URL record selection of the pipeline `main` loop (lines
672–730): the agent's parsed output when it parses, otherwise the
deterministic fallback document (the scraper's parsed output and the
probed hours arrive as arguments, having been produced by the external
scrape collaborator). -/
def chooseRecord (agentHistory : List HistMsg) (scrapedParsed : JsonVal)
    (category fallbackUrl : List Char) (hours : HoursData) :
    JsonVal × ExtractMethod :=
  match parseAgentOutput agentHistory with
  | some doc => (doc, .agent)
  | none => (buildSanityDoc scrapedParsed category fallbackUrl hours, .fallback)

/-- Is this optional value a string? -/
def isStrVal : Option JsonVal → Bool
  | some (.str _) => true
  | _ => false

/-- Is this optional value an array? -/
def isArrVal : Option JsonVal → Bool
  | some (.arr _) => true
  | _ => false

/-- Is this optional value a number or `null`? -/
def isNumOrNull : Option JsonVal → Bool
  | some (.num _) => true
  | some .null => true
  | _ => false

/-- Shape-completeness of a sanity document: every key of the record
schema is present — `name`, `description`, `address`, `location` (with
`latitude`/`longitude` number-or-null), `serviceTypes`,
`hoursOfOperation` (with `periods`/`weekdayText` arrays) and `contact`
(with string `phone`/`email`/`website`) — missing values being empty
strings, empty arrays, or `null`, never absent keys. -/
def shapeComplete (d : JsonVal) : Bool :=
  match d with
  | .obj f =>
    isStrVal (jGet f "name".data) &&
    isArrVal (jGet f "description".data) &&
    isStrVal (jGet f "address".data) &&
    (match jGet f "location".data with
     | some (.obj lf) =>
       isNumOrNull (jGet lf "latitude".data) && isNumOrNull (jGet lf "longitude".data)
     | _ => false) &&
    isArrVal (jGet f "serviceTypes".data) &&
    (match jGet f "hoursOfOperation".data with
     | some (.obj hf) =>
       isArrVal (jGet hf "periods".data) && isArrVal (jGet hf "weekdayText".data)
     | _ => false) &&
    (match jGet f "contact".data with
     | some (.obj cf) =>
       isStrVal (jGet cf "phone".data) && isStrVal (jGet cf "email".data) &&
       isStrVal (jGet cf "website".data)
     | _ => false)
  | _ => false

theorem expandFuel_eq (ms : List AIMessage) (f s : Nat) (h : s ≤ f) :
    expandFuel ms f s = expandStart ms s := by
  induction f generalizing s with
  | zero =>
    have hs : s = 0 := by omega
    subst hs
    rcases ha : adjustForToolDependencies ms 0 with _ | i
    · rw [expandFuel, expandStart_none ms 0 ha]
    · exact absurd (adjust_lt ms 0 i ha) (by omega)
  | succ f ihf =>
    rw [expandFuel]
    rcases ha : adjustForToolDependencies ms s with _ | i
    · rw [expandStart_none ms s ha]
    · have hi : i < s := adjust_lt ms s i ha
      rw [expandStart_some ms s i ha]
      exact ihf i (by omega)

/-! ## Generic helper lemmas -/

theorem mem_of_mem_jsTrim (x : Char) (l : List Char) (h : x ∈ jsTrim l) : x ∈ l := by
  unfold jsTrim at h
  rw [List.mem_reverse] at h
  have h1 := (List.dropWhile_sublist (l := (l.dropWhile isWsChar).reverse) isWsChar).mem h
  rw [List.mem_reverse] at h1
  exact (List.dropWhile_sublist isWsChar).mem h1

theorem drop_length_sub_one {α : Type} (l : List α) (h : l ≠ []) :
    l.drop (l.length - 1) = [l.getLast h] := by
  induction l with
  | nil => exact absurd rfl h
  | cons a t ih =>
    cases t with
    | nil => rfl
    | cons b t' =>
      have hne : b :: t' ≠ [] := by simp
      have : (a :: b :: t').length - 1 = (b :: t').length := by simp
      rw [this]
      have hstep : (a :: b :: t').drop (b :: t').length = (b :: t').drop ((b :: t').length - 1) := by
        simp [List.drop]
      rw [hstep, ih hne, List.getLast_cons hne]

/-! ## Claim C1: the approve/deny review gate -/

/-- A queued job used as the C1 counterexample input. -/
def cx1job : Job :=
  { id := "j1", status := .queued, createdAt := 0, updatedAt := 0,
    input := { city := "Salem", state := "OR", category := "FOOD_BANK" } }

/-- C1 counterexample: a `POST approve` on a `queued` job is not rejected
as invalid-state — the handler answers 200 and moves the job to
`approved`, so the status does change and `approved` is reached from
`queued`, not from `ready_for_review`. -/
theorem approve_queued_not_rejected :
    (handleApprove (some cx1job) none 1).1 = 200 ∧
    ((handleApprove (some cx1job) none 1).2.map Job.status) = some JobStatus.approved ∧
    cx1job.status = JobStatus.queued ∧
    JobStatus.approved ≠ JobStatus.queued := by
  refine ⟨rfl, rfl, rfl, by decide⟩

/-- C1 (corrected): the approve and deny handlers perform no state-machine
check at all — on any existing job, whatever its status, they answer 200
and unconditionally set the status to `approved` (resp. `denied`),
stamping the reviewer and timestamp; only an unknown job id is rejected
(404).  Hence `approved` and `denied` are reachable from every status. -/
theorem approve_deny_ignore_status (j : Job) (rb : Option String) (now : Nat) :
    handleApprove (some j) rb now = (200, some (approveJob j rb now)) ∧
    (approveJob j rb now).status = JobStatus.approved ∧
    (approveJob j rb now).approvedAt = some now ∧
    handleDeny (some j) rb now = (200, some (denyJob j rb now)) ∧
    (denyJob j rb now).status = JobStatus.denied ∧
    (denyJob j rb now).deniedAt = some now ∧
    handleApprove none rb now = (404, none) ∧
    handleDeny none rb now = (404, none) :=
  ⟨rfl, rfl, rfl, rfl, rfl, rfl, rfl, rfl⟩

/-! ## Claim C4: hour-token normalization -/

/-- C4 counterexample: `toPeriodTime` rejects `"0900"` (the regex
`^(\d{1,2})(?::(\d{2}))?\s*(am|pm)?$` cannot consume four bare digits),
while `"9:00am"` normalizes to `"0900"`, so the three tokens do not all
yield the same 4-digit time token. -/
theorem toPeriodTime_0900_rejected :
    toPeriodTime (JsonVal.str "0900".data) = none ∧
    toPeriodTime (JsonVal.str "9:00am".data) = some "0900".data ∧
    toPeriodTime (JsonVal.str "0900".data) ≠ toPeriodTime (JsonVal.str "9:00am".data) := by
  refine ⟨by decide, by decide, by decide⟩

/-- C4 (corrected): normalizing `"9:00am"` and `"9"` (AM context being the
default when no meridiem is given) both yield the 4-digit token `"0900"`,
but `"0900"` itself fails the hour regex and normalizes to `null`. -/
theorem toPeriodTime_agreement :
    toPeriodTime (JsonVal.str "9:00am".data) = some "0900".data ∧
    toPeriodTime (JsonVal.str "9".data) = some "0900".data ∧
    toPeriodTime (JsonVal.str "9".data) = toPeriodTime (JsonVal.str "9:00am".data) ∧
    toPeriodTime (JsonVal.str "0900".data) = none := by
  refine ⟨by decide, by decide, by decide, by decide⟩

/-! ## Claim C5: the orchestrator URL merge -/

theorem mergeUrls_spec (results : List SearchResult) :
    mergeUrls results = specFirstSeenDedup ((results.map SearchResult.urls).flatten) := by
  suffices h : ∀ (rs : List SearchResult) (acc : List (List Char)),
      rs.foldl (fun a r => mergeInto a r.urls) acc =
      ((rs.map SearchResult.urls).flatten).foldl
        (fun a u => if u ∈ a then a else a ++ [u]) acc by
    exact h results []
  intro rs
  induction rs with
  | nil =>
    intro acc
    rfl
  | cons r rest ih =>
    intro acc
    simp only [List.foldl_cons, List.map_cons, List.flatten_cons, List.foldl_append]
    rw [← ih]
    rfl

/-- C5: merging search results `[a, b]` and `[b, c]` (for pairwise
distinct URLs) yields `[a, b, c]`; in general the merge is the first-seen
dedup of the concatenated per-query URL lists (query order and
within-query order preserved, duplicates coalesced to their first
occurrence), and the candidate list is the merge truncated to
`maxUrls`. -/
theorem orchestrator_url_merge (q1 q2 : List Char) (a b c : List Char)
    (maxUrls : Nat) (results : List SearchResult)
    (hab : a ≠ b) (hbc : b ≠ c) (hac : a ≠ c) :
    mergeUrls [⟨q1, [a, b]⟩, ⟨q2, [b, c]⟩] = [a, b, c] ∧
    mergeUrls results = specFirstSeenDedup ((results.map SearchResult.urls).flatten) ∧
    urlsToScrape results maxUrls = (mergeUrls results).take maxUrls := by
  refine ⟨?_, mergeUrls_spec results, rfl⟩
  have hba : ¬ b = a := fun h => hab h.symm
  have hcb : ¬ c = b := fun h => hbc h.symm
  have hca : ¬ c = a := fun h => hac h.symm
  simp [mergeUrls, mergeInto, hba, hcb, hca]

/-- C5 witness: the merge evaluated at concrete distinct URLs. -/
theorem orchestrator_url_merge_witness :
    mergeUrls [⟨"f1".data, ["a".data, "b".data]⟩, ⟨"f2".data, ["b".data, "c".data]⟩]
      = ["a".data, "b".data, "c".data] ∧
    urlsToScrape [⟨"f1".data, ["a".data, "b".data]⟩, ⟨"f2".data, ["b".data, "c".data]⟩] 2
      = (mergeUrls [⟨"f1".data, ["a".data, "b".data]⟩, ⟨"f2".data, ["b".data, "c".data]⟩]).take 2 := by
  have h := orchestrator_url_merge "f1".data "f2".data "a".data "b".data "c".data 2
    [⟨"f1".data, ["a".data, "b".data]⟩, ⟨"f2".data, ["b".data, "c".data]⟩]
    (by decide) (by decide) (by decide)
  exact ⟨h.1, h.2.2⟩

/-! ## Claim C3: oversized tool-content truncation -/

/-- C3 (corrected): appending an oversized tool message stores it with the
content cut to the 16000-character threshold plus the marker
`"\n...[truncated N chars]"` stating the exact truncated count `N`; the
stored length is `16022 + digits(N)`, which is strictly below the
original length exactly when the original is at least 16025 characters
long (`N ≥ 25`). -/
theorem tool_content_truncation (m : AIMessage) (c : List Char)
    (stored : List AIMessage) (hrole : m.role = some "tool")
    (hc : m.content = some c) (hlen : TOOL_MAX < c.length) :
    addMessages [.record m] stored = stored ++ [trimMessage m] ∧
    (trimMessage m).content = some (c.take TOOL_MAX ++ truncMarker (c.length - TOOL_MAX)) ∧
    ((trimMessage m).content.getD []).length = 16022 + digitCount (c.length - TOOL_MAX) ∧
    (16025 ≤ c.length → ((trimMessage m).content.getD []).length < c.length) := by
  have hT : TOOL_MAX = 16000 := rfl
  have htrim : (trimMessage m).content
      = some (c.take TOOL_MAX ++ truncMarker (c.length - TOOL_MAX)) := by
    simp [trimMessage, hrole, hc, hlen]
  have hv : validRecord (.record m) = some m := by
    simp [validRecord, hrole]
  have hstored : ((trimMessage m).content.getD []).length
      = 16022 + digitCount (c.length - TOOL_MAX) := by
    rw [htrim]
    simp only [Option.getD_some, List.length_append, List.length_take, truncMarker_length]
    omega
  refine ⟨by simp [addMessages, hv], htrim, hstored, ?_⟩
  intro h25
  have hd := digitCount_add_lt (c.length - TOOL_MAX) (by omega)
  omega

/-- The oversized tool message of the C3 counterexample: 16001 characters
of content, one character over the threshold. -/
def cx3c : List Char := List.replicate 16001 'a'

/-- See `cx3c`. -/
def cx3m : AIMessage := { role := some "tool", content := some cx3c }

/-- C3 counterexample: for an original content of 16001 characters the
stored content (16000 kept + the 23-character marker
`"\n...[truncated 1 chars]"`) is 16023 characters long, so
`storedLength < originalLength` fails. -/
theorem tool_truncation_growth :
    addMessages [.record cx3m] [] = [trimMessage cx3m] ∧
    ((trimMessage cx3m).content.getD []).length = 16023 ∧
    cx3c.length = 16001 ∧
    ¬ (((trimMessage cx3m).content.getD []).length < cx3c.length) := by
  have hclen : cx3c.length = 16001 := by
    rw [cx3c, List.length_replicate]
  have hT : TOOL_MAX = 16000 := rfl
  have hlt : TOOL_MAX < cx3c.length := by omega
  have hrole : cx3m.role = some "tool" := rfl
  have hc : cx3m.content = some cx3c := rfl
  have htrim : (trimMessage cx3m).content
      = some (cx3c.take TOOL_MAX ++ truncMarker (cx3c.length - TOOL_MAX)) := by
    simp [trimMessage, hrole, hc, hlt]
  have hd1 : digitCount 1 = 1 := by
    rw [digitCount]
    norm_num
  have hlen23 : ((trimMessage cx3m).content.getD []).length = 16023 := by
    rw [htrim, Option.getD_some, List.length_append, List.length_take, truncMarker_length]
    have hm : cx3c.length - TOOL_MAX = 1 := by omega
    rw [hm, hd1]
    omega
  have hv : validRecord (.record cx3m) = some cx3m := by
    simp [validRecord, hrole]
  refine ⟨by simp [addMessages, hv], hlen23, hclen, by omega⟩

/-- C3 witness: a 16025-character content is stored strictly shorter. -/
def w3c : List Char := List.replicate 16025 'b'

/-- See `w3c`. -/
def w3m : AIMessage := { role := some "tool", content := some w3c }

/-- C3 witness: the amended truncation bound applied at 16025 characters. -/
theorem tool_content_truncation_witness :
    ((trimMessage w3m).content.getD []).length < w3c.length :=
  (tool_content_truncation w3m w3c [] rfl rfl
      (by rw [w3c, List.length_replicate]; decide)).2.2.2
    (by rw [w3c, List.length_replicate])

/-! ## Claim C9: `append` drops records lacking a role -/

theorem filterMap_validRecord_nil (batch : List RawRecord)
    (hall : ∀ r ∈ batch, validRecord r = none) :
    batch.filterMap validRecord = [] := by
  induction batch with
  | nil => rfl
  | cons r rest ih =>
    rw [List.filterMap_cons, hall r (by simp)]
    exact ih fun r' hr' => hall r' (by simp [hr'])

/-- C9: `addMessages` silently discards records lacking a `role` field
(and `null`/primitive entries): a batch of only such records leaves the
stored transcript unchanged (same list, same length, no error — the
function is total), while a valid record in the same batch as an invalid
one is still stored (trimmed). -/
theorem append_drops_roleless (batch : List RawRecord) (stored : List AIMessage)
    (hall : ∀ r ∈ batch, validRecord r = none)
    (bad : RawRecord) (hbad : validRecord bad = none)
    (good : AIMessage) (hgood : good.role.isSome) :
    addMessages batch stored = stored ∧
    (addMessages batch stored).length = stored.length ∧
    addMessages [bad, .record good] stored = stored ++ [trimMessage good] := by
  have hnil : batch.filterMap validRecord = [] := filterMap_validRecord_nil batch hall
  have hv : validRecord (.record good) = some good := by
    simp [validRecord, hgood]
  refine ⟨by simp [addMessages, hnil], by simp [addMessages, hnil], ?_⟩
  simp [addMessages, List.filterMap_cons, hbad, hv]

/-- C9 witness: concrete roleless records are dropped and a valid record
in the same batch is kept. -/
theorem append_drops_roleless_witness :
    addMessages [.nullish, .primitive, .record {}] [] = [] ∧
    addMessages [.record {}, .record { role := some "user" }] []
      = [] ++ [trimMessage { role := some "user" }] := by
  have h := append_drops_roleless [.nullish, .primitive, .record {}] []
    (by decide) (.record {}) (by decide) { role := some "user" } (by decide)
  exact ⟨h.1, h.2.2⟩

/-! ## Claim C10: the widening loop reaches a fixed point -/

/-- C10: each expansion pass strictly decreases the window start (bounded
below by zero), the loop's result is a fixed point, the fixed point is
reached within transcript-length iterations (`expandFuel` with fuel
`ms.length` computes it), and `getMessages` equals its fuel-bounded
variant on every input — hence the tail operation terminates. -/
theorem expansion_terminates (ms : List AIMessage) :
    (∀ s i, adjustForToolDependencies ms s = some i → i < s) ∧
    (∀ s, s ≤ ms.length →
      expandFuel ms ms.length s = expandStart ms s ∧
      adjustForToolDependencies ms (expandStart ms s) = none) ∧
    (∀ limit, getMessages ms limit = getMessagesFuel ms limit) := by
  refine ⟨fun s i h => adjust_lt ms s i h,
    fun s hs => ⟨expandFuel_eq ms ms.length s hs, expandStart_fixed ms s⟩, ?_⟩
  intro limit
  unfold getMessages getMessagesFuel
  by_cases hle : ms.length ≤ limit.getD 1
  · simp [hle]
  · simp only [hle, if_false]
    rw [expandFuel_eq ms ms.length (ms.length - limit.getD 1) (by omega)]

/-- A plain user message used by several witnesses. -/
def wUser : AIMessage := { role := some "user", content := some "hi".data }

/-- C10 witness: the bounded loop evaluated on a one-message transcript. -/
theorem expansion_terminates_witness :
    expandFuel [wUser] 1 0 = expandStart [wUser] 0 ∧
    adjustForToolDependencies [wUser] (expandStart [wUser] 0) = none := by
  have h := (expansion_terminates [wUser]).2.1 0 (by decide)
  exact h

/-! ## Claim C8: `tail()` with the limit omitted -/

theorem expandStart_zero (ms : List AIMessage) : expandStart ms 0 = 0 := by
  rcases h : adjustForToolDependencies ms 0 with _ | i
  · exact expandStart_none ms 0 h
  · exact absurd (adjust_lt ms 0 i h) (by omega)

/-- C8: with the limit omitted, `getMessages` defaults to a limit of one:
it returns the dependency expansion of the window holding only the most
recent message, and when that message needs no expansion (in particular
whenever it is not a tool response) the result is exactly the single most
recent message. -/
theorem tail_default_single (ms : List AIMessage) (hne : ms ≠ []) :
    getMessages ms none = getMessages ms (some 1) ∧
    getMessages ms none = ms.drop (expandStart ms (ms.length - 1)) ∧
    (adjustForToolDependencies ms (ms.length - 1) = none →
      getMessages ms none = [ms.getLast hne]) := by
  have hlen : 1 ≤ ms.length := by
    cases ms with
    | nil => exact absurd rfl hne
    | cons a t => simp
  have h2 : getMessages ms none = ms.drop (expandStart ms (ms.length - 1)) := by
    simp only [getMessages, Option.getD_none]
    by_cases hle : ms.length ≤ 1
    · have h0 : ms.length - 1 = 0 := by omega
      rw [if_pos hle, h0, expandStart_zero, List.drop_zero]
    · rw [if_neg hle]
  refine ⟨rfl, h2, ?_⟩
  intro hadj
  rw [h2, expandStart_none ms _ hadj, drop_length_sub_one ms hne]

/-- C8 witness: on a one-message transcript, `tail()` is exactly the most
recent message. -/
theorem tail_default_single_witness :
    getMessages [wUser] none = getMessages [wUser] (some 1) ∧
    getMessages [wUser] none = [([wUser] : List AIMessage).getLast (by decide)] := by
  have h := tail_default_single [wUser] (by decide)
  exact ⟨h.1, h.2.2 (by decide)⟩

/-! ## Claim C2: no orphaned tool responses in the returned window -/

/-- The claim's hypothesis as stated: every tool message's tool-call
identifier references a tool-call id emitted by a preceding assistant
message in the full transcript. -/
def OrigToolRefs (ms : List AIMessage) : Prop :=
  ∀ (j : Nat) (m : AIMessage) (id : String),
    ms[j]? = some m → m.role = some "tool" → m.tool_call_id = some id →
    ∃ i m', i < j ∧ ms[i]? = some m' ∧ emitsToolCall m' id = true

/-- The amended hypothesis: additionally, every tool-call identifier is
nonempty (an empty identifier is falsy in JavaScript and is skipped by
the widening pass). -/
def ToolRefsOk (ms : List AIMessage) : Prop :=
  ∀ (j : Nat) (m : AIMessage) (id : String),
    ms[j]? = some m → m.role = some "tool" → m.tool_call_id = some id →
    id ≠ "" ∧ ∃ i m', i < j ∧ ms[i]? = some m' ∧ emitsToolCall m' id = true

theorem findAssistantIndex_spec (ms : List AIMessage) (id : String) :
    ∀ i, findAssistantIndex ms id = some i →
    ∃ m, ms[i]? = some m ∧ emitsToolCall m id = true := by
  induction ms with
  | nil =>
    intro i h
    simp [findAssistantIndex] at h
  | cons a rest ih =>
    intro i h
    rw [findAssistantIndex] at h
    split at h
    · injection h with h'
      subst h'
      rename_i hem
      exact ⟨a, by simp, hem⟩
    · rcases Option.map_eq_some'.mp h with ⟨j, hj, hij⟩
      obtain ⟨m, hm, hem⟩ := ih j hj
      subst hij
      exact ⟨m, by simpa using hm, hem⟩

theorem findAssistantIndex_le (ms : List AIMessage) :
    ∀ (i : Nat) (m : AIMessage) (id : String), ms[i]? = some m →
    emitsToolCall m id = true →
    ∃ i0, findAssistantIndex ms id = some i0 ∧ i0 ≤ i := by
  induction ms with
  | nil =>
    intro i m id h _
    simp at h
  | cons a rest ih =>
    intro i m id h hem
    rw [findAssistantIndex]
    by_cases ha : emitsToolCall a id = true
    · exact ⟨0, by simp [ha], by omega⟩
    · cases i with
      | zero =>
        simp at h
        subst h
        exact absurd hem ha
      | succ i' =>
        simp only [List.getElem?_cons_succ] at h
        obtain ⟨j, hj, hle⟩ := ih i' m id h hem
        refine ⟨j + 1, ?_, by omega⟩
        simp [ha, hj]

theorem adjustAux_none_spec (ms : List AIMessage) (s : Nat) :
    ∀ (l : List AIMessage), adjustAux ms s l = none →
    ∀ m ∈ l, ∀ id, isPendingTool m = some id →
    ∀ i0, findAssistantIndex ms id = some i0 → ¬ i0 < s := by
  intro l
  induction l with
  | nil =>
    intro _ m hm
    simp at hm
  | cons a rest ih =>
    intro h m hm id hpend i0 hfind hlt
    rw [adjustAux] at h
    rcases List.mem_cons.mp hm with hma | hmr
    · subst hma
      simp only [hpend, hfind] at h
      rw [if_pos hlt] at h
      cases h
    · rcases hp : isPendingTool a with _ | ida
      · simp only [hp] at h
        exact ih h m hmr id hpend i0 hfind hlt
      · simp only [hp] at h
        rcases hf : findAssistantIndex ms ida with _ | ja
        · simp only [hf] at h
          exact ih h m hmr id hpend i0 hfind hlt
        · simp only [hf] at h
          by_cases hja : ja < s
          · rw [if_pos hja] at h
            cases h
          · rw [if_neg hja] at h
            exact ih h m hmr id hpend i0 hfind hlt

theorem adjust_none_spec (ms : List AIMessage) (s : Nat)
    (h : adjustForToolDependencies ms s = none) :
    ∀ m ∈ ms.drop s, ∀ id, isPendingTool m = some id →
    ∀ i0, findAssistantIndex ms id = some i0 → ¬ i0 < s := by
  unfold adjustForToolDependencies at h
  exact adjustAux_none_spec ms s (ms.drop s) h

/-- C2 (corrected): for every transcript whose tool messages carry
nonempty tool-call identifiers each emitted by a preceding assistant
message, and for every limit, the slice returned by `getMessages` never
contains a tool message without the assistant message holding its
matching tool-call id appearing strictly earlier in that same slice. -/
theorem tail_no_orphan_tool (ms : List AIMessage) (hwf : ToolRefsOk ms)
    (limit : Option Nat) (p : Nat) (m : AIMessage) (id : String)
    (hp : (getMessages ms limit)[p]? = some m)
    (hrole : m.role = some "tool") (hid : m.tool_call_id = some id) :
    ∃ q m', q < p ∧ (getMessages ms limit)[q]? = some m' ∧
      emitsToolCall m' id = true := by
  rcases le_or_lt ms.length (limit.getD 1) with hle | hgt
  · have hms : getMessages ms limit = ms := by
      simp [getMessages, hle]
    rw [hms] at hp ⊢
    obtain ⟨-, i, m', hi, hgi, hem⟩ := hwf p m id hp hrole hid
    exact ⟨i, m', hi, hgi, hem⟩
  · have hnle : ¬ ms.length ≤ limit.getD 1 := by omega
    have hms : getMessages ms limit
        = ms.drop (expandStart ms (ms.length - limit.getD 1)) := by
      simp [getMessages, hnle]
    rw [hms] at hp ⊢
    set s := expandStart ms (ms.length - limit.getD 1) with hs
    have hfix : adjustForToolDependencies ms s = none := expandStart_fixed ms _
    have hmp : ms[s + p]? = some m := by
      rw [← List.getElem?_drop]
      exact hp
    obtain ⟨hne, i, m', hi, hgi, hem⟩ := hwf (s + p) m id hmp hrole hid
    obtain ⟨i0, hfind, hi0le⟩ := findAssistantIndex_le ms i m' id hgi hem
    have hmem : m ∈ ms.drop s := List.getElem?_mem hp
    have hpend : isPendingTool m = some id := by
      simp [isPendingTool, hrole, hid, hne]
    have hge : ¬ i0 < s := adjust_none_spec ms s hfix m hmem id hpend i0 hfind
    obtain ⟨m0, hm0, hem0⟩ := findAssistantIndex_spec ms id i0 hfind
    refine ⟨i0 - s, m0, by omega, ?_, hem0⟩
    rw [List.getElem?_drop]
    have heq : s + (i0 - s) = i0 := by omega
    rw [heq]
    exact hm0

/-- The C2 counterexample transcript: an assistant emitting the (empty
but type-valid) tool-call id `""`, the tool response referencing it, and
a trailing user message. -/
def cx2A : AIMessage := { role := some "assistant", tool_calls := some [⟨""⟩] }

/-- See `cx2A`. -/
def cx2T : AIMessage := { role := some "tool", tool_call_id := some "" }

/-- See `cx2A`. -/
def cx2U : AIMessage := { role := some "user" }

/-- See `cx2A`. -/
def cx2ms : List AIMessage := [cx2A, cx2T, cx2U]

/-- C2 counterexample: the transcript satisfies the claim's hypothesis as
stated (every tool message's identifier is emitted by a preceding
assistant message), yet `tail(2)` returns `[tool, user]` — the tool
message sits at position 0 of the returned slice and no message of the
slice emits its id, because the empty identifier is falsy in JavaScript
and the widening pass skips it. -/
theorem empty_id_orphan :
    OrigToolRefs cx2ms ∧
    getMessages cx2ms (some 2) = [cx2T, cx2U] ∧
    cx2T.role = some "tool" ∧
    cx2T.tool_call_id = some "" ∧
    (∀ (q : Nat) (m' : AIMessage), (getMessages cx2ms (some 2))[q]? = some m' →
      emitsToolCall m' "" = false) := by
  have hget : getMessages cx2ms (some 2) = [cx2T, cx2U] := by
    simp [getMessages, cx2ms, expandStart, adjustForToolDependencies, adjustAux,
      isPendingTool, cx2A, cx2T, cx2U]
  refine ⟨?_, hget, rfl, rfl, ?_⟩
  · intro j m id hj hrole hid
    cases j with
    | zero =>
      rw [show cx2ms[0]? = some cx2A from rfl] at hj
      injection hj with hm
      subst hm
      exact absurd hrole (by decide)
    | succ j1 =>
      cases j1 with
      | zero =>
        rw [show cx2ms[1]? = some cx2T from rfl] at hj
        injection hj with hm
        subst hm
        have hideq : id = "" := by
          have h' := hid
          simp [cx2T] at h'
          exact h'.symm
        subst hideq
        exact ⟨0, cx2A, by omega, rfl, by decide⟩
      | succ j2 =>
        cases j2 with
        | zero =>
          rw [show cx2ms[2]? = some cx2U from rfl] at hj
          injection hj with hm
          subst hm
          exact absurd hrole (by decide)
        | succ j3 =>
          rw [List.getElem?_eq_none (l := cx2ms) (by
            simp only [cx2ms, List.length_cons, List.length_nil]
            omega)] at hj
          cases hj
  · intro q m' hq
    rw [hget] at hq
    cases q with
    | zero =>
      injection hq with hm
      subst hm
      decide
    | succ q1 =>
      cases q1 with
      | zero =>
        injection hq with hm
        subst hm
        decide
      | succ q2 =>
        rw [List.getElem?_eq_none (l := ([cx2T, cx2U] : List AIMessage)) (by
          simp only [List.length_cons, List.length_nil]
          omega)] at hq
        cases hq

/-- The C2 witness transcript: a real tool-call id. -/
def wA : AIMessage :=
  { role := some "assistant", content := some "c".data, tool_calls := some [⟨"abc123"⟩] }

/-- See `wA`. -/
def wT : AIMessage :=
  { role := some "tool", content := some "out".data, tool_call_id := some "abc123" }

/-- C2 witness: the amended invariant applied to a concrete two-message
transcript. -/
theorem tail_no_orphan_tool_witness :
    ∃ q m', q < 1 ∧ (getMessages [wA, wT] (some 2))[q]? = some m' ∧
      emitsToolCall m' "abc123" = true := by
  apply tail_no_orphan_tool [wA, wT] ?hwf (some 2) 1 wT "abc123" rfl rfl rfl
  case hwf =>
    intro j m id hj hrole hid
    cases j with
    | zero =>
      rw [show ([wA, wT] : List AIMessage)[0]? = some wA from rfl] at hj
      injection hj with hm
      subst hm
      exact absurd hrole (by decide)
    | succ j1 =>
      cases j1 with
      | zero =>
        rw [show ([wA, wT] : List AIMessage)[1]? = some wT from rfl] at hj
        injection hj with hm
        subst hm
        have hideq : id = "abc123" := by
          have h' := hid
          simp [wT] at h'
          exact h'.symm
        subst hideq
        exact ⟨by decide, 0, wA, by omega, rfl, by decide⟩
      | succ j2 =>
        rw [List.getElem?_eq_none (l := ([wA, wT] : List AIMessage)) (by
          simp only [List.length_cons, List.length_nil]
          omega)] at hj
        cases hj

/-! ## Claim C6: shape-completeness of sanity documents -/

theorem mkSanityDoc_shape (name descriptionText address : List Char)
    (location : Option Rat × Option Rat) (category : List Char)
    (hours : HoursData) (phone email website : List Char) :
    shapeComplete (mkSanityDoc name descriptionText address location category
      hours phone email website) = true := by
  obtain ⟨la, ln⟩ := location
  cases la <;> cases ln <;> rfl

/-- C6 (corrected): every sanity document produced by the deterministic
fallback path (`buildSanityDoc`) is shape-complete — all schema keys
present, with missing values as empty strings, empty arrays, or `null` —
and any record the per-URL loop tags `fallback` is therefore
shape-complete; agent-path records, by contrast, are stored exactly as
parsed, with no shape validation. -/
theorem fallback_doc_shape_complete (scraped : JsonVal)
    (category fallbackUrl : List Char) (hours : HoursData) :
    shapeComplete (buildSanityDoc scraped category fallbackUrl hours) = true ∧
    (∀ (history : List HistMsg),
      (chooseRecord history scraped category fallbackUrl hours).2 = ExtractMethod.fallback →
      shapeComplete (chooseRecord history scraped category fallbackUrl hours).1 = true) := by
  have hb : shapeComplete (buildSanityDoc scraped category fallbackUrl hours) = true := by
    unfold buildSanityDoc
    exact mkSanityDoc_shape _ _ _ _ _ _ _ _ _
  refine ⟨hb, ?_⟩
  intro history hm
  unfold chooseRecord at hm ⊢
  rcases h : parseAgentOutput history with _ | doc
  · simp only [h]
    exact hb
  · rw [h] at hm
    simp at hm

/-- The C6 counterexample history: one assistant message whose content is
the two-character JSON text `\x7b\x7d` (an empty object). -/
def cx6hist : List HistMsg := [{ role := some "assistant", content := some "\x7b\x7d".data }]

/-- C6 counterexample: the agent path parses the assistant output (an
empty JSON object), and the per-URL loop places it in the pipeline output
unvalidated — a record with every schema key absent, hence not
shape-complete. -/
theorem agent_record_not_validated :
    chooseRecord cx6hist JsonVal.null "FOOD_BANK".data "https://example.org".data ⟨[], []⟩
      = (JsonVal.obj [], ExtractMethod.agent) ∧
    shapeComplete (JsonVal.obj []) = false := by
  exact ⟨rfl, rfl⟩

/-! ## Claim C7: exactly ten queries, ten file lines -/

theorem dedupeCap_le_length (l : List (List Char)) :
    ∀ acc, acc.length ≤ (dedupeCap acc l).length := by
  induction l with
  | nil =>
    intro acc
    simp [dedupeCap]
  | cons q rest ih =>
    intro acc
    rw [dedupeCap]
    by_cases hq : q ∈ acc
    · simp only [if_pos hq]
      split
    
      · omega
      · exact ih acc
    · simp only [if_neg hq]
      split
      · simp
      · have := ih (acc ++ [q])
        simp at this
        omega

theorem dedupeCap_le_ten (l : List (List Char)) :
    ∀ acc, acc.length < 10 → (dedupeCap acc l).length ≤ 10 := by
  induction l with
  | nil =>
    intro acc h
    simp [dedupeCap]
    omega
  | cons q rest ih =>
    intro acc h
    rw [dedupeCap]
    by_cases hq : q ∈ acc
    · simp only [if_pos hq]
      split
      · omega
      · exact ih acc h
    · simp only [if_neg hq]
      split
      · rename_i hlen
        omega
      · rename_i hlen
        simp only [List.length_append, List.length_cons, List.length_nil] at hlen
        exact ih (acc ++ [q]) (by
          simp only [List.length_append, List.length_cons, List.length_nil]
          omega)

theorem dedupeCap_mem (l : List (List Char)) :
    ∀ acc x, x ∈ dedupeCap acc l → x ∈ acc ∨ x ∈ l := by
  induction l with
  | nil =>
    intro acc x h
    rw [dedupeCap] at h
    exact Or.inl h
  | cons q rest ih =>
    intro acc x h
    rw [dedupeCap] at h
    by_cases hq : q ∈ acc
    · simp only [if_pos hq] at h
      split at h
      · exact Or.inl h
      · rcases ih acc x h with h' | h'
        · exact Or.inl h'
        · exact Or.inr (by simp [h'])
    · simp only [if_neg hq] at h
      split at h
      · rcases List.mem_append.mp h with h' | h'
        · exact Or.inl h'
        · exact Or.inr (by simp at h'; simp [h'])
      · rcases ih (acc ++ [q]) x h with h' | h'
        · rcases List.mem_append.mp h' with h'' | h''
          · exact Or.inl h''
          · exact Or.inr (by simp at h''; simp [h''])
        · exact Or.inr (by simp [h'])

theorem dedupeCap_pos (cleaned : List (List Char)) (h : cleaned ≠ []) :
    1 ≤ (dedupeCap [] cleaned).length := by
  cases cleaned with
  | nil => exact absurd rfl h
  | cons q rest =>
    rw [dedupeCap]
    simp only [List.mem_nil_iff, if_neg (fun h' => h'), List.nil_append]
    split
    · simp
    · have := dedupeCap_le_length rest [q]
      simp at this
      omega

theorem getD_mem (u : List (List Char)) :
    ∀ n, n < u.length → u.getD n [] ∈ u := by
  induction u with
  | nil =>
    intro n h
    simp at h
  | cons a t ih =>
    intro n h
    cases n with
    | zero => simp [List.getD]
    | succ n' =>
      have : (a :: t).getD (n' + 1) [] = t.getD n' [] := rfl
      rw [this]
      have := ih n' (by simp at h; omega)
      exact List.mem_cons_of_mem a this

theorem padLoop_len (k : Nat) :
    ∀ (i : Nat) (u : List (List Char)), 10 - u.length ≤ k →
    0 < u.length → u.length ≤ 10 → (padLoop i u).length = 10 := by
  induction k with
  | zero =>
    intro i u hk h0 h10
    rw [padLoop]
    have hc : ¬ (0 < u.length ∧ u.length < 10) := by omega
    rw [dif_neg hc]
    omega
  | succ k ih =>
    intro i u hk h0 h10
    rw [padLoop]
    by_cases hc : 0 < u.length ∧ u.length < 10
    · rw [dif_pos hc]
      exact ih (i + 1) (u ++ [u.getD (i % u.length) []])
        (by simp only [List.length_append, List.length_cons, List.length_nil]; omega)
        (by simp only [List.length_append, List.length_cons, List.length_nil]; omega)
        (by simp only [List.length_append, List.length_cons, List.length_nil]; omega)
    · rw [dif_neg hc]
      omega

theorem padLoop_mem (k : Nat) :
    ∀ (i : Nat) (u : List (List Char)) (x : List Char), 10 - u.length ≤ k →
    x ∈ padLoop i u → x ∈ u := by
  induction k with
  | zero =>
    intro i u x hk h
    rw [padLoop] at h
    have hc : ¬ (0 < u.length ∧ u.length < 10) := by omega
    rw [dif_neg hc] at h
    exact h
  | succ k ih =>
    intro i u x hk h
    rw [padLoop] at h
    by_cases hc : 0 < u.length ∧ u.length < 10
    · rw [dif_pos hc] at h
      have := ih (i + 1) (u ++ [u.getD (i % u.length) []]) x
        (by simp only [List.length_append, List.length_cons, List.length_nil]; omega) h
      rcases List.mem_append.mp this with h' | h'
      · exact h'
      · simp only [List.mem_singleton] at h'
        subst h'
        exact getD_mem u (i % u.length) (Nat.mod_lt i hc.1)
    · rw [dif_neg hc] at h
      exact h

theorem splitOnChar_not_mem (sep : Char) (l : List Char) :
    ∀ p ∈ splitOnChar sep l, sep ∉ p := by
  induction l with
  | nil =>
    intro p hp
    simp [splitOnChar] at hp
    simp [hp]
  | cons c rest ih =>
    intro p hp
    rw [splitOnChar] at hp
    by_cases hc : c = sep
    · simp only [if_pos hc] at hp
      rcases List.mem_cons.mp hp with h' | h'
      · simp [h']
      · exact ih p h'
    · simp only [if_neg hc] at hp
      rcases he : splitOnChar sep rest with _ | ⟨piece, more⟩
      · rw [he] at hp
        simp only [List.mem_singleton] at hp
        subst hp
        intro hmem
        rcases List.mem_cons.mp hmem with h' | h'
        · exact hc h'.symm
        · simp at h'
      · rw [he] at hp
        rcases List.mem_cons.mp hp with h' | h'
        · subst h'
          intro hmem
          rcases List.mem_cons.mp hmem with h' | h'
          · exact hc h'.symm
          · exact ih piece (by rw [he]; simp) h'
        · exact ih p (by rw [he]; simp [h'])

theorem splitOnChar_of_not_mem (sep : Char) (l : List Char) (h : sep ∉ l) :
    splitOnChar sep l = [l] := by
  induction l with
  | nil => rfl
  | cons c rest ih =>
    rw [splitOnChar]
    have hc : ¬ c = sep := by
      intro he
      exact h (by simp [he])
    rw [if_neg hc, ih (fun hm => h (by simp [hm]))]

theorem splitOnChar_append_sep (sep : Char) (q t : List Char) (h : sep ∉ q) :
    splitOnChar sep (q ++ sep :: t) = q :: splitOnChar sep t := by
  induction q with
  | nil =>
    simp only [List.nil_append]
    rw [splitOnChar, if_pos rfl]
  | cons c q' ih =>
    have hc : ¬ c = sep := by
      intro he
      exact h (by simp [he])
    rw [List.cons_append, splitOnChar, if_neg hc,
      ih (fun hm => h (by simp [hm]))]

theorem splitOnChar_joinWithChar (sep : Char) :
    ∀ (qs : List (List Char)), qs ≠ [] → (∀ q ∈ qs, sep ∉ q) →
    splitOnChar sep (joinWithChar sep qs) = qs := by
  intro qs
  induction qs with
  | nil =>
    intro h _
    exact absurd rfl h
  | cons q rest ih =>
    intro _ hall
    cases rest with
    | nil =>
      rw [joinWithChar]
      exact splitOnChar_of_not_mem sep q (hall q (by simp))
    | cons q' rest' =>
      rw [joinWithChar, splitOnChar_append_sep sep q _ (hall q (by simp)),
        ih (by simp) (fun x hx => hall x (by simp [hx]))]

theorem stripBullet_mem (line r : List Char) (h : stripBullet line = some r) :
    ∀ x ∈ r, x ∈ line := by
  cases line with
  | nil => cases h
  | cons c rest =>
    simp only [stripBullet] at h
    split at h
    · injection h with h'
      subst h'
      intro x hx
      have hx1 := mem_of_mem_jsTrim x _ hx
      have hx2 := (List.dropWhile_sublist isWsChar).mem hx1
      exact List.mem_cons_of_mem c hx2
    · cases h

theorem stripNumberDot_mem (line r : List Char) (h : stripNumberDot line = some r) :
    ∀ x ∈ r, x ∈ line := by
  simp only [stripNumberDot] at h
  split at h
  · split at h
    · rename_i heq
      split at h
      · injection h with h'
        subst h'
        intro x hx
        have hx1 := mem_of_mem_jsTrim x _ hx
        have hx2 := (List.dropWhile_sublist isWsChar).mem hx1
        have hx3 : x ∈ '.' :: _ := List.mem_cons_of_mem '.' hx2
        rw [← heq] at hx3
        exact (List.drop_sublist _ _).mem hx3
      · cases h
    · cases h
  · cases h

theorem cleanQueryLine_mem (line : List Char) :
    ∀ x ∈ cleanQueryLine line, x ∈ line := by
  intro x hx
  unfold cleanQueryLine at hx
  rcases hb : stripBullet line with _ | r
  · rw [hb] at hx
    rcases hn : stripNumberDot line with _ | r'
    · rw [hn] at hx
      exact hx
    · rw [hn] at hx
      exact stripNumberDot_mem line r' hn x hx
  · rw [hb] at hx
    exact stripBullet_mem line r hb x hx

/-- C7 (corrected): whenever the model output contains at least one
nonempty line, `normalizeQueries` returns exactly ten query strings and
the persisted file (`queries.join('\n')`) splits back into exactly those
ten lines, one query per line; and whenever the stricter
`validateAndNormalizeQueries` succeeds, it returns exactly ten queries.
On a fully-empty model output, however, `normalizeQueries` returns zero
queries. -/
theorem query_generator_ten (raw : List Char)
    (hne : ((splitOnChar '\n' raw).map jsTrim).filter (fun l => l ≠ []) ≠ []) :
    (normalizeQueries raw).length = 10 ∧
    splitOnChar '\n' (queryFileContent (normalizeQueries raw)) = normalizeQueries raw ∧
    (∀ (qs out : List (List Char)), validateAndNormalizeQueries qs = .ok out →
      out.length = 10) := by
  have hclne : (((splitOnChar '\n' raw).map jsTrim).filter
      (fun l => l ≠ [])).map cleanQueryLine ≠ [] := by
    intro h
    exact hne (List.map_eq_nil_iff.mp h)
  have h1 := dedupeCap_pos _ hclne
  have h10 := dedupeCap_le_ten
    ((((splitOnChar '\n' raw).map jsTrim).filter (fun l => l ≠ [])).map cleanQueryLine)
    [] (by simp)
  have hpad := padLoop_len 10 0
    (dedupeCap [] ((((splitOnChar '\n' raw).map jsTrim).filter
      (fun l => l ≠ [])).map cleanQueryLine))
    (by omega) (by omega) h10
  have hnorm : normalizeQueries raw
      = (padLoop 0 (dedupeCap [] ((((splitOnChar '\n' raw).map jsTrim).filter
        (fun l => l ≠ [])).map cleanQueryLine))).take 10 := rfl
  have hlen : (normalizeQueries raw).length = 10 := by
    rw [hnorm, List.length_take, hpad]
    exact Nat.min_self 10
  have hnonl : ∀ q ∈ normalizeQueries raw, '\n' ∉ q := by
    intro q hq hnl
    rw [hnorm] at hq
    have hq1 := (List.take_sublist 10 _).mem hq
    have hq2 := padLoop_mem 10 0 _ q (by omega) hq1
    rcases dedupeCap_mem _ [] q hq2 with h' | h'
    · simp at h'
    · rcases List.mem_map.mp h' with ⟨line, hline, hq3⟩
      subst hq3
      have hnl' : '\n' ∈ line := cleanQueryLine_mem line '\n' hnl
      have hline2 := List.mem_of_mem_filter hline
      rcases List.mem_map.mp hline2 with ⟨p, hp, hjp⟩
      subst hjp
      exact splitOnChar_not_mem '\n' raw p hp (mem_of_mem_jsTrim '\n' p hnl')
  refine ⟨hlen, ?_, ?_⟩
  · exact splitOnChar_joinWithChar '\n' (normalizeQueries raw)
      (by intro h; rw [h] at hlen; simp at hlen) hnonl
  · intro qs out h
    simp only [validateAndNormalizeQueries] at h
    split at h
    · rename_i hl
      injection h with h'
      subst h'
      exact hl
    · cases h

/-- C7 counterexample: on an empty model output `normalizeQueries`
returns zero queries, not ten — the padding loop is guarded by
`unique.length > 0` and never runs. -/
theorem empty_output_zero_queries :
    normalizeQueries "".data = [] ∧ (normalizeQueries "".data).length ≠ 10 := by
  have h : normalizeQueries "".data = [] := by
    simp only [normalizeQueries]
    rw [show splitOnChar '\n' "".data = [[]] from rfl]
    simp [jsTrim, dedupeCap, padLoop]
  rw [h]
  simp

/-- C7 witness: a one-line model output is padded to exactly ten queries
and persists as exactly those ten lines. -/
theorem query_generator_ten_witness :
    (normalizeQueries "one query".data).length = 10 ∧
    splitOnChar '\n' (queryFileContent (normalizeQueries "one query".data))
      = normalizeQueries "one query".data := by
  have h := query_generator_ten "one query".data (by decide)
  exact ⟨h.1, h.2.1⟩
